import Mathlib

/-!
Verification development for the notion-excel-merger repository.

The definitions below are a shallow embedding of the merge planning and
execution engine of `src/src/App.tsx` (and its rewrite in
`src/unnamed/part_001`, which shares the same core functions).  JavaScript
objects used as string-keyed dictionaries (`Map`, plain objects, Excel rows,
page property bags) are embedded as association lists in insertion order,
because both JS `Map` and plain objects iterate keys in insertion order and
`Map.set` / property assignment replace the value of an existing key while
keeping its position.  JS numbers are embedded as `Option ℚ` where `none`
stands for a non-finite result (`NaN` or an infinity); every use of numbers
in the source guards with `isFinite`, so conflating `NaN` with the
infinities is observationally faithful.
-/

namespace NotionExcelMerger

/-- A JavaScript scalar value as it can appear in an Excel row cell or be fed
to the value codec.  `strList` models a JS array of strings (the only array
shape the application feeds to the codec: multi-select option lists).
`undefined` is JS `undefined` (an absent object property), `null` is JS `null`. -/
inductive JVal where
  | str (s : String)
  | num (n : ℚ)
  | bool (b : Bool)
  | null
  | undefined
  | strList (xs : List String)
  deriving DecidableEq, Repr

/-- JS number-to-string conversion.  Integers are rendered exactly as JS
does; the decimal rendering of non-integer rationals is abstracted (no claim
depends on it). -/
def jsNumToString (n : ℚ) : String :=
  if n.den = 1 then toString n.num else toString n

/-- JS `String(value)` coercion on the embedded value universe. -/
def jsString : JVal → String
  | .str s => s
  | .num n => jsNumToString n
  | .bool b => if b then "true" else "false"
  | .null => "null"
  | .undefined => "undefined"
  | .strList xs => String.intercalate "," xs

/-- JS `s.trim()`: strip leading and trailing whitespace.  (Implemented
over the character list so that it evaluates by kernel reduction; the JS
whitespace class is modelled by `Char.isWhitespace`.) -/
def jsTrim (s : String) : String :=
  String.mk (((s.data.dropWhile Char.isWhitespace).reverse.dropWhile
    Char.isWhitespace).reverse)

/-- Numeric value of a list of decimal digit characters (helper for the JS
`Number` model); `none` if any character is not a digit. -/
def digitsVal (cs : List Char) : Option Nat :=
  cs.foldl (fun acc c => acc.bind fun n =>
    if c.isDigit then some (10 * n + (c.toNat - 48)) else none) (some 0)

/-- JS `Number(string)` on a sign-and-decimal literal (after trimming):
optional `+`/`-`, an integer part and/or a fractional part.  Hexadecimal,
exponent and `Infinity` forms are abstracted to `none` (non-finite /
non-numeric); every consumer guards with `isFinite`, so that abstraction is
observationally faithful for the code under verification.  `splitDot`
splits a character list at every dot (the `"."` split of the source,
implemented structurally). -/
def splitDot : List Char → List (List Char)
  | [] => [[]]
  | c :: rest =>
      if c = '.' then [] :: splitDot rest
      else
        match splitDot rest with
        | [] => [[c]]
        | seg :: segs => (c :: seg) :: segs

def parseSignedDecimal (t : String) : Option ℚ :=
  let (sign, body) :=
    match t.data with
    | '-' :: r => ((-1 : ℚ), r)
    | '+' :: r => ((1 : ℚ), r)
    | cs => ((1 : ℚ), cs)
  match splitDot body with
  | [a] =>
      if a.isEmpty then none
      else (digitsVal a).map fun v => sign * (v : ℚ)
  | [a, b] =>
      if a.isEmpty ∧ b.isEmpty then none
      else
        (digitsVal a).bind fun ip =>
          (digitsVal b).map fun fp =>
            sign * ((ip : ℚ) + (fp : ℚ) / ((10 : ℚ) ^ b.length))
  | _ => none

/-- JS `Number(string)`: surrounding whitespace is ignored and the empty
(or all-whitespace) string converts to `0`. -/
def strToNum (s : String) : Option ℚ :=
  let t := jsTrim s
  if t = "" then some 0 else parseSignedDecimal t

/-- JS `Number(value)` restricted to finite results: `none` models a
non-finite conversion (`NaN` or an infinity). -/
def jsNumber : JVal → Option ℚ
  | .str s => strToNum s
  | .num n => some n
  | .bool b => some (if b then 1 else 0)
  | .null => some 0
  | .undefined => none
  | .strList xs =>
      match xs with
      | [] => some 0
      | [x] => strToNum x
      | _ => none

/-- Splitter for the JS regex split `value.split(/[,;]\s*/)`: a separator is
a single comma or semicolon followed by a greedy run of whitespace.  The
`skipping` flag is true while consuming the whitespace run that follows a
separator. -/
def splitCSVAux : List Char → List Char → Bool → List String
  | [], cur, _ => [String.mk cur.reverse]
  | c :: rest, cur, skipping =>
      if c = ',' ∨ c = ';' then
        String.mk cur.reverse :: splitCSVAux rest [] true
      else if skipping ∧ c.isWhitespace then
        splitCSVAux rest cur true
      else
        splitCSVAux rest (c :: cur) false

/-- JS `s.split(/[,;]\s*/)`. -/
def splitCSV (s : String) : List String := splitCSVAux s.data [] false

/-- Validity of a `YYYY-MM-DD` prefix for the JS `Date` model: four digits,
dash, two digits (month 01–12), dash, two digits (day 01–31).  Per-month day
limits are abstracted; no claim depends on them. -/
def validIsoDate (cs : List Char) : Bool :=
  match cs with
  | [y1, y2, y3, y4, '-', m1, m2, '-', d1, d2] =>
      y1.isDigit && y2.isDigit && y3.isDigit && y4.isDigit &&
      m1.isDigit && m2.isDigit && d1.isDigit && d2.isDigit &&
      (let m := 10 * (m1.toNat - 48) + (m2.toNat - 48)
       let d := 10 * (d1.toNat - 48) + (d2.toNat - 48)
       decide (1 ≤ m) && decide (m ≤ 12) && decide (1 ≤ d) && decide (d ≤ 31))
  | _ => false

/-- Model of `new Date(value)` followed by `toISOString().slice(0, 10)`,
restricted to ISO date-only strings: ECMAScript reads `YYYY-MM-DD` as UTC
midnight, so the resulting calendar date is exactly the input.  Offset-less
date-time forms (`YYYY-MM-DDThh:mm`) parse in host-local time, making their
UTC calendar date host-dependent, and other accepted formats are
host-dependent too; the model treats all of those as unparseable.  No claim
depends on the behavior outside the date-only fragment. -/
def jsDateIso : JVal → Option String
  | .str s => if validIsoDate s.data then some s else none
  | _ => none

/-- One rich-text run of a typed property value.  `content` embeds the
`text.content` field sent to the API; `plain_text` embeds the `plain_text`
field that the API populates on responses (the constant `type: "text"` tag
is omitted).  Either field can be absent. -/
structure TextRun where
  content : Option String
  plain_text : Option String
  deriving DecidableEq, Repr

/-- A typed property value, tagged by its `type` field; the payload of each
constructor embeds the identically named field of the JS object (the
`{ title: ... }` / `{ number: ... }` / ... wire shape).  An `Option`
payload of `none` embeds a `null`/absent payload field.  `multi_select`
options are embedded by their `name` strings.  `other` stands for any
property type outside the switch of `getNotionPropertyPlainValue`. -/
inductive TypedProp where
  | title (runs : Option (List TextRun))
  | rich_text (runs : Option (List TextRun))
  | number (n : Option ℚ)
  | email (s : Option String)
  | url (s : Option String)
  | phone_number (s : Option String)
  | select (name : Option String)
  | multi_select (opts : List String)
  | date (start : Option String)
  | checkbox (b : Option Bool)
  | status (name : Option String)
  | other
  deriving DecidableEq, Repr

/-- The `string | number | null` result type of
`getNotionPropertyPlainValue`. -/
inductive PlainVal where
  | pstr (s : String)
  | pnum (n : ℚ)
  | pnull
  deriving DecidableEq, Repr

/-- Plain-text content of the first run: `(v?.[0]?.plain_text ?? "")`. -/
def firstPlainText (runs : List TextRun) : String :=
  (runs.head?.bind TextRun.plain_text).getD ""

/-- Embedding of `getNotionPropertyPlainValue` (App.tsx lines 84–113).  The
argument is `Option TypedProp` because the property may be absent from the
page (`!prop` returns null); an inner `none` payload is the `v == null`
early return. -/
def getNotionPropertyPlainValue : Option TypedProp → PlainVal
  | none => .pnull
  | some (.title none) => .pnull
  | some (.title (some runs)) => .pstr (jsTrim (firstPlainText runs))
  | some (.rich_text none) => .pnull
  | some (.rich_text (some runs)) => .pstr (jsTrim (firstPlainText runs))
  | some (.number none) => .pnull
  | some (.number (some n)) => .pnum n
  | some (.email none) => .pnull
  | some (.email (some s)) => .pstr s
  | some (.url none) => .pnull
  | some (.url (some s)) => .pstr s
  | some (.phone_number none) => .pnull
  | some (.phone_number (some s)) => .pstr s
  | some (.select none) => .pnull
  | some (.select (some nm)) => .pstr nm
  | some (.multi_select opts) => .pstr (String.intercalate ", " (opts.filter (· ≠ "")))
  | some (.date none) => .pnull
  | some (.date (some st)) => .pstr st
  | some (.checkbox none) => .pnull
  | some (.checkbox (some b)) => .pstr (if b then "true" else "false")
  | some (.status none) => .pnull
  | some (.status (some nm)) => .pstr nm
  | some .other => .pnull

/-- The `truthy` list of the checkbox case: `[true, "true", "1", 1, "yes", "y"]`. -/
def checkboxTruthy : List JVal :=
  [.bool true, .str "true", .str "1", .num 1, .str "yes", .str "y"]

/-- The `falsy` list of the checkbox case:
`[false, "false", "0", 0, "no", "n", ""]`. -/
def checkboxFalsy : List JVal :=
  [.bool false, .str "false", .str "0", .num 0, .str "no", .str "n", .str ""]

/-- Embedding of `buildNotionPropertyValue` (App.tsx lines 115–172).  The
result is the typed payload the function returns, tagged by the property
field it is stored under (`{ title: ... }` embeds as `TypedProp.title ...`);
`none` is the `undefined` result ("drop this field change").  The
`createMultiFromCSV` option is fixed to its default `true`, which is the
only way the source ever calls the function. -/
def buildNotionPropertyValue (targetType : String) (value : JVal) : Option TypedProp :=
  if value = .undefined ∨ value = .null then none
  else if targetType = "title" then
    some (.title (some [⟨some (jsString value), none⟩]))
  else if targetType = "rich_text" then
    some (.rich_text (some [⟨some (jsString value), none⟩]))
  else if targetType = "number" then
    (jsNumber value).map fun n => .number (some n)
  else if targetType = "email" then
    some (.email (some (jsString value)))
  else if targetType = "url" then
    some (.url (some (jsString value)))
  else if targetType = "phone_number" then
    some (.phone_number (some (jsString value)))
  else if targetType = "select" then
    some (.select (if value = .str "" then none else some (jsString value)))
  else if targetType = "multi_select" then
    some (.multi_select
      (match value with
       | .strList xs => xs
       | .str s => (splitCSV s).filter (· ≠ "")
       | _ => []))
  else if targetType = "date" then
    (jsDateIso value).map fun d => .date (some d)
  else if targetType = "checkbox" then
    if value ∈ checkboxTruthy then some (.checkbox (some true))
    else if value ∈ checkboxFalsy then some (.checkbox (some false))
    else none
  else if targetType = "status" then
    some (.status (some (jsString value)))
  else
    some (.rich_text (some [⟨some (jsString value), none⟩]))

/-- JS `Math.round` on the exact rational model of a JS number (round half
toward positive infinity). -/
def jsRound (q : ℚ) : ℤ := ⌊q + 1 / 2⌋

/-- One option of a select/multi_select/status property (the `color` field
is never read by the engine and is omitted). -/
structure SelectOption where
  id : Option String
  name : String
  deriving DecidableEq, Repr

/-- Embedding of `NotionPropertyDef`.  The source treats a missing
`options` field as `[]` (`prop.options ?? []` at every use), so `options`
is embedded as a plain list. -/
structure NotionPropertyDef where
  name : String
  type : String
  options : List SelectOption
  deriving DecidableEq, Repr

/-- An Excel row: a string-keyed record of scalar cells, in key insertion
order. -/
abbrev ExcelRow := List (String × JVal)

/-- A Notion page: id plus its property bag. -/
structure NotionPage where
  id : String
  properties : List (String × TypedProp)
  deriving DecidableEq, Repr

/-- One Excel-column-to-Notion-property mapping row (`id` is UI bookkeeping
with no planning semantics). -/
structure Mapping where
  id : String
  excelColumn : String
  notionProperty : String
  deriving DecidableEq, Repr

/-- The four join types of the merge configuration. -/
inductive JoinType where
  | left
  | right
  | inner
  | outer
  deriving DecidableEq, Repr

/-- JS `Map.get` / object-property read on the association-list embedding. -/
def mapGet {α : Type} (m : List (String × α)) (k : String) : Option α :=
  match m with
  | [] => none
  | (k', v) :: rest => if k' = k then some v else mapGet rest k

/-- JS `Map.set` / object-property assignment: replace the value of an
existing key in place (keeping its position), otherwise append the new
entry. -/
def mapSet {α : Type} (m : List (String × α)) (k : String) (v : α) : List (String × α) :=
  if (mapGet m k).isSome then
    m.map (fun p => if p.1 = k then (k, v) else p)
  else
    m ++ [(k, v)]

/-- JS `row[col]`: `undefined` when the column is absent. -/
def rowGet (row : ExcelRow) (col : String) : JVal :=
  (mapGet row col).getD .undefined

/-- JS `v ?? d`. -/
def jsCoalesce (v d : JVal) : JVal :=
  if v = .null ∨ v = .undefined then d else v

/-- Key of one Excel row: `String(row[excelKey] ?? "").trim()`. -/
def excelRowKey (excelKey : String) (row : ExcelRow) : String :=
  jsTrim (jsString (jsCoalesce (rowGet row excelKey) (.str "")))

/-- JS `String(plain)` on a decoded plain value (only reached for non-null
values in the source). -/
def plainToString : PlainVal → String
  | .pstr s => s
  | .pnum n => jsNumToString n
  | .pnull => "null"

/-- Key of one Notion page:
`plain != null ? String(plain).trim() : ""` applied to the decoded value of
the configured key property. -/
def notionPageKey (notionKey : String) (pg : NotionPage) : String :=
  match getNotionPropertyPlainValue (mapGet pg.properties notionKey) with
  | .pnull => ""
  | .pstr s => jsTrim s
  | .pnum n => jsTrim (jsNumToString n)

/-- The shared loop of `excelIndex` and `notionIndex` (App.tsx lines
321–341): insert every item whose key is non-empty, later items overwriting
earlier ones via `Map.set`. -/
def buildIndex {α : Type} (keyOf : α → String) (items : List α) : List (String × α) :=
  items.foldl (fun m x => if keyOf x ≠ "" then mapSet m (keyOf x) x else m) []

/-- Embedding of the `excelIndex` memo (App.tsx lines 321–329); an empty
key column name short-circuits to the empty map. -/
def excelIndex (excelKey : String) (rows : List ExcelRow) : List (String × ExcelRow) :=
  if excelKey = "" then [] else buildIndex (excelRowKey excelKey) rows

/-- Embedding of the `notionIndex` memo (App.tsx lines 331–341). -/
def notionIndex (notionKey : String) (pages : List NotionPage) :
    List (String × NotionPage) :=
  if notionKey = "" then [] else buildIndex (notionPageKey notionKey) pages

/-- JS `Set.add`: append if not already present (insertion-ordered set). -/
def addKey (l : List String) (k : String) : List String :=
  if k ∈ l then l else l ++ [k]

/-- Add every element of `ks` to the insertion-ordered set `l`. -/
def addAll (l : List String) (ks : List String) : List String :=
  ks.foldl addKey l

/-- JS `new Set(list)` as an insertion-ordered duplicate-free list. -/
def jsSetOf (ks : List String) : List String := addAll [] ks

/-- The key-universe selection of `buildPlannedUpdates` (App.tsx lines
354–367): `leftKeys`/`rightKeys` are `new Set(index.keys())` and the four
join types fill the `keys` set as in the source. -/
def selectedKeys (jt : JoinType) (leftRaw rightRaw : List String) : List String :=
  let leftKeys := jsSetOf leftRaw
  let rightKeys := jsSetOf rightRaw
  match jt with
  | .left => addAll [] leftKeys
  | .right => addAll [] rightKeys
  | .inner => leftKeys.foldl (fun ks k => if k ∈ rightKeys then addKey ks k else ks) []
  | .outer => addAll (addAll [] leftKeys) rightKeys

/-- The merge configuration state consumed by the planner. -/
structure MergeConfig where
  joinType : JoinType
  mappings : List Mapping
  dbProps : List NotionPropertyDef
  onlyUpdateEmpty : Bool
  allowCreatePages : Bool
  deriving DecidableEq, Repr

/-- Lookup of a property definition by name (`selectedDbPropDefs.get` /
`dbProps.find`); property names are unique, coming from `Object.entries` of
the database's `properties` object, so first-match equals the Map
semantics. -/
def findProp (dbProps : List NotionPropertyDef) (name : String) :
    Option NotionPropertyDef :=
  dbProps.find? (fun p => p.name = name)

/-- The tagged `Plan` variant of the source. -/
inductive Plan where
  | update (key : String) (excel : ExcelRow) (page : NotionPage)
      (changes : List (String × TypedProp))
  | create (key : String) (excel : ExcelRow) (changes : List (String × TypedProp))
  | skip (key : String) (excel : Option ExcelRow) (page : Option NotionPage)
      (reason : String)
  deriving DecidableEq, Repr

/-- The `key` field shared by all three plan variants. -/
def Plan.key : Plan → String
  | .update k _ _ _ => k
  | .create k _ _ => k
  | .skip k _ _ _ => k

/-- The `changes` object computed in the both-present branch of
`buildPlannedUpdates` (App.tsx lines 376–386). -/
def computeUpdateChanges (cfg : MergeConfig) (row : ExcelRow) (page : NotionPage) :
    List (String × TypedProp) :=
  cfg.mappings.foldl (fun changes m =>
    if m.notionProperty ≠ "" ∧ (findProp cfg.dbProps m.notionProperty).isSome then
      match findProp cfg.dbProps m.notionProperty with
      | some targetDef =>
          if cfg.onlyUpdateEmpty ∧
              getNotionPropertyPlainValue (mapGet page.properties m.notionProperty) ≠ .pnull ∧
              getNotionPropertyPlainValue (mapGet page.properties m.notionProperty) ≠ .pstr ""
          then changes
          else
            match buildNotionPropertyValue targetDef.type (rowGet row m.excelColumn) with
            | some built => mapSet changes m.notionProperty built
            | none => changes
      | none => changes
    else changes) []

/-- The `changes` object computed in the create branch of
`buildPlannedUpdates` (App.tsx lines 395–402); an unknown target property
falls back to `rich_text`. -/
def computeCreateChanges (cfg : MergeConfig) (row : ExcelRow) :
    List (String × TypedProp) :=
  cfg.mappings.foldl (fun changes m =>
    if m.notionProperty = "" then changes
    else
      match buildNotionPropertyValue
          (match findProp cfg.dbProps m.notionProperty with
           | some d => d.type
           | none => "rich_text")
          (rowGet row m.excelColumn) with
      | some built => mapSet changes m.notionProperty built
      | none => changes) []

/-- The body of the `keys.forEach` loop of `buildPlannedUpdates` (App.tsx
lines 371–411): the plans pushed for one key. -/
def planForKey (cfg : MergeConfig) (eIdx : List (String × ExcelRow))
    (nIdx : List (String × NotionPage)) (key : String) : List Plan :=
  match mapGet eIdx key, mapGet nIdx key with
  | some excelRow, some page =>
      if (computeUpdateChanges cfg excelRow page).length > 0 then
        [.update key excelRow page (computeUpdateChanges cfg excelRow page)]
      else
        [.skip key (some excelRow) (some page) "No changes computed"]
  | some excelRow, none =>
      if (cfg.joinType = .left ∨ cfg.joinType = .outer) ∧ cfg.allowCreatePages then
        [.create key excelRow (computeCreateChanges cfg excelRow)]
      else
        [.skip key (some excelRow) none "No matching Notion page"]
  | none, some page => [.skip key none (some page) "No matching Excel row"]
  | none, none => []

/-- Embedding of `buildPlannedUpdates` (App.tsx lines 353–414). -/
def buildPlannedUpdates (cfg : MergeConfig) (eIdx : List (String × ExcelRow))
    (nIdx : List (String × NotionPage)) : List Plan :=
  (selectedKeys cfg.joinType (eIdx.map Prod.fst) (nIdx.map Prod.fst)).flatMap
    (planForKey cfg eIdx nIdx)

/-- The `changes` mapping of an update/create plan (`plan.changes ?? {}`
yields `none ↦ skip` in the option-scan of `onExecute`). -/
def planChanges : Plan → Option (List (String × TypedProp))
  | .update _ _ _ ch => some ch
  | .create _ _ ch => some ch
  | .skip _ _ _ _ => none

/-- The needed-option entries contributed by one `changes` entry in the
option-scan of `onExecute` (App.tsx lines 466–478): a select/status entry
is pushed only when its name is truthy (non-empty); every multi_select
option is pushed. -/
def neededFromChange (dbProps : List NotionPropertyDef) (propName : String)
    (val : TypedProp) : List (NotionPropertyDef × String) :=
  match findProp dbProps propName with
  | none => []
  | some pd =>
      (if pd.type = "select" then
        match val with
        | .select (some nm) => if nm ≠ "" then [(pd, nm)] else []
        | _ => []
      else []) ++
      (if pd.type = "multi_select" then
        match val with
        | .multi_select opts => opts.map (fun nm => (pd, nm))
        | _ => []
      else []) ++
      (if pd.type = "status" then
        match val with
        | .status (some nm) => if nm ≠ "" then [(pd, nm)] else []
        | _ => []
      else [])

/-- The `needed` list assembled by `onExecute` before calling
`ensureSelectOptions` (App.tsx lines 462–481). -/
def collectNeeded (plans : List Plan) (dbProps : List NotionPropertyDef) :
    List (NotionPropertyDef × String) :=
  plans.flatMap fun p =>
    match planChanges p with
    | some changes => changes.flatMap fun e => neededFromChange dbProps e.1 e.2
    | none => []

/-- One step of the grouping loop of `ensureSelectOptions` (App.tsx lines
424–429): `grouped` is a `Map` from property name to the (first-seen)
property definition and a `Set` of option names. -/
def insertGroup (acc : List (String × NotionPropertyDef × List String))
    (prop : NotionPropertyDef) (nm : String) :
    List (String × NotionPropertyDef × List String) :=
  match acc.find? (fun g => g.1 = prop.name) with
  | some _ =>
      acc.map fun g =>
        if g.1 = prop.name then
          (g.1, g.2.1, if nm ∈ g.2.2 then g.2.2 else g.2.2 ++ [nm])
        else g
  | none => acc ++ [(prop.name, prop, [nm])]

/-- The `grouped` map of `ensureSelectOptions`. -/
def groupNeeded (needed : List (NotionPropertyDef × String)) :
    List (String × NotionPropertyDef × List String) :=
  needed.foldl (fun acc pn => insertGroup acc pn.1 pn.2) []

/-- Names of a property's existing options. -/
def optionNames (pd : NotionPropertyDef) : List String :=
  pd.options.map SelectOption.name

/-- Embedding of the payload built by `ensureSelectOptions` (App.tsx lines
432–448): one entry `(property name, property type, new option list)` per
property with at least one missing option; the schema-patch request is
issued iff this payload is non-empty. -/
def ensureSelectOptionsPayload (needed : List (NotionPropertyDef × String)) :
    List (String × String × List SelectOption) :=
  (groupNeeded needed).foldl (fun ups g =>
    if (g.2.2.filter (fun nm => nm ∉ optionNames g.2.1)) ≠ [] then
      ups ++ [(g.2.1.name, g.2.1.type,
        g.2.1.options ++
          (g.2.2.filter (fun nm => nm ∉ optionNames g.2.1)).map (fun nm => ⟨none, nm⟩))]
    else ups) []

/-- Deduplication keeping the first occurrence of each element (elements of
`seen` are dropped); this is the "first-seen order" notion used to specify
the option reconciler. -/
def firstSeenAux : List String → List String → List String
  | [], _ => []
  | x :: xs, seen =>
      if x ∈ seen then firstSeenAux xs seen else x :: firstSeenAux xs (x :: seen)

/-- Deduplication keeping the first occurrence of each element. -/
def firstSeen (l : List String) : List String := firstSeenAux l []

/-- All option names referenced for a given property name, in order. -/
def namesFor (needed : List (NotionPropertyDef × String)) (propName : String) :
    List String :=
  (needed.filter (fun pn => pn.1.name = propName)).map Prod.snd

/-- Observable state of the execution loop of `onExecute` (App.tsx lines
484–500): the completed-count, the last reported progress value, and the
number of page-update / page-create requests issued. -/
structure ExecState where
  done : Nat
  progress : ℤ
  patchRequests : Nat
  createRequests : Nat
  deriving DecidableEq, Repr

/-- One iteration of the serial dispatch loop: update/create plans issue a
request, skip plans issue none; every iteration increments `done` and
reports `Math.round(done / plans.length * 100)`. -/
def execStep (total : Nat) (st : ExecState) (p : Plan) : ExecState :=
  let st1 :=
    match p with
    | .update _ _ _ _ => { st with patchRequests := st.patchRequests + 1 }
    | .create _ _ _ => { st with createRequests := st.createRequests + 1 }
    | .skip _ _ _ _ => st
  { st1 with
    done := st1.done + 1
    progress := jsRound (((st1.done + 1 : Nat) : ℚ) / (total : ℚ) * 100) }

/-- The whole dispatch loop of `onExecute` over a plan list. -/
def runPlans (plans : List Plan) : ExecState :=
  plans.foldl (execStep plans.length) ⟨0, 0, 0, 0⟩

/-! ### Concrete fixtures used by witnesses and counterexamples -/

/-- A fixture row whose key cell is `"A"`. -/
def wRowA1 : ExcelRow := [("K", .str "A"), ("V", .str "1")]

/-- A fixture row whose key cell trims to the same `"A"` key. -/
def wRowA2 : ExcelRow := [("K", .str " A "), ("V", .str "2")]

/-- A fixture page whose key title decodes to `"A"`. -/
def wPageA1 : NotionPage := ⟨"p1", [("Key", .title (some [⟨some "A", some "A"⟩]))]⟩

/-- A second fixture page whose key title also decodes to `"A"`. -/
def wPageA2 : NotionPage := ⟨"p2", [("Key", .title (some [⟨some " A ", some " A "⟩]))]⟩

/-- A fixture row with key `"k"` and a blank `Val` cell. -/
def wRow0 : ExcelRow := [("K", .str "k"), ("Val", .str "")]

/-- A fixture page with key `"k"` and a numeric `Amt` property. -/
def wPage0 : NotionPage :=
  ⟨"p0", [("Key", .title (some [⟨some "k", some "k"⟩])), ("Amt", .number (some 5))]⟩

/-- A configuration with no mappings (left join, creation disabled). -/
def cfgNoMappings : MergeConfig := ⟨.left, [], [], false, false⟩

/-- A configuration mapping the blank `Val` column onto the numeric `Amt`
property (left join, creation disabled). -/
def cfgNumber : MergeConfig :=
  ⟨.left, [⟨"m1", "Val", "Amt"⟩], [⟨"Key", "title", []⟩, ⟨"Amt", "number", []⟩], false, false⟩

/-- A select property whose only existing option is `"New"`. -/
def wStatusProp : NotionPropertyDef := ⟨"Status", "select", [⟨some "o1", "New"⟩]⟩

/-- A plan list that references only the existing `"New"` option. -/
def wPlansOk : List Plan :=
  [Plan.update "k" wRow0 wPage0 [("Status", .select (some "New"))]]

/-- A skip plan used to exercise the execution loop. -/
def wSkipPlan : Plan := Plan.skip "x" none none "No matching Excel row"

/-! ### Association-list map lemmas -/

theorem mapGet_map_overwrite {α : Type} (m : List (String × α)) (k k' : String) (v : α) :
    mapGet (m.map (fun p => if p.1 = k then (k, v) else p)) k' =
      if k' = k then (mapGet m k).map (fun _ => v) else mapGet m k' := by
  induction m with
  | nil => simp [mapGet]
  | cons hd tl ih =>
      obtain ⟨a, b⟩ := hd
      rw [List.map_cons]
      by_cases hak : a = k
      · have hhd : (if (a, b).1 = k then (k, v) else (a, b)) = (k, v) := if_pos hak
        rw [hhd]
        by_cases hk' : k' = k
        · subst hk'
          simp only [mapGet, if_pos rfl, if_pos hak]
          simp
        · have hk2 : ¬k = k' := fun h => hk' h.symm
          have hak2 : ¬a = k' := fun h => hk' (hak ▸ h).symm
          simp only [mapGet, if_neg hk2, if_neg hk', if_neg hak2, ih]
      · have hhd : (if (a, b).1 = k then (k, v) else (a, b)) = (a, b) := if_neg hak
        rw [hhd]
        by_cases ha' : a = k'
        · have hk' : ¬k' = k := fun h => hak (ha'.trans h)
          simp only [mapGet, if_pos ha', if_neg hk']
        · simp only [mapGet, if_neg ha', ih, if_neg hak]

theorem mapGet_append {α : Type} (m₁ m₂ : List (String × α)) (k : String) :
    mapGet (m₁ ++ m₂) k =
      match mapGet m₁ k with
      | some x => some x
      | none => mapGet m₂ k := by
  induction m₁ with
  | nil => simp [mapGet]
  | cons hd tl ih =>
      by_cases h : hd.1 = k <;> simp [mapGet, h, ih]

theorem mapGet_mapSet {α : Type} (m : List (String × α)) (k k' : String) (v : α) :
    mapGet (mapSet m k v) k' = if k' = k then some v else mapGet m k' := by
  unfold mapSet
  by_cases h : (mapGet m k).isSome
  · rw [if_pos h, mapGet_map_overwrite]
    rcases Option.isSome_iff_exists.mp h with ⟨x, hx⟩
    by_cases hk : k' = k <;> simp [hk, hx]
  · rw [if_neg h, mapGet_append]
    rw [Option.not_isSome_iff_eq_none] at h
    by_cases hk : k' = k
    · subst hk; simp [h, mapGet]
    · have hk2 : ¬k = k' := fun hh => hk hh.symm
      cases hmk : mapGet m k' <;> simp [mapGet, hk, hk2, hmk]

theorem keys_mapSet {α : Type} (m : List (String × α)) (k : String) (v : α) :
    (mapSet m k v).map Prod.fst =
      if (mapGet m k).isSome then m.map Prod.fst else m.map Prod.fst ++ [k] := by
  unfold mapSet
  by_cases h : (mapGet m k).isSome
  · rw [if_pos h, if_pos h, List.map_map]
    congr 1
    funext p
    by_cases hp : p.1 = k <;> simp [hp]
  · rw [if_neg h, if_neg h]
    simp

theorem mapGet_eq_none_iff {α : Type} (m : List (String × α)) (k : String) :
    mapGet m k = none ↔ k ∉ m.map Prod.fst := by
  induction m with
  | nil => simp [mapGet]
  | cons hd tl ih =>
      by_cases h : hd.1 = k <;> simp [mapGet, h, ih, Ne.symm, eq_comm]

theorem nodup_keys_mapSet {α : Type} (m : List (String × α)) (k : String) (v : α)
    (h : (m.map Prod.fst).Nodup) : ((mapSet m k v).map Prod.fst).Nodup := by
  rw [keys_mapSet]
  by_cases hs : (mapGet m k).isSome
  · simpa [hs] using h
  · rw [Option.not_isSome_iff_eq_none] at hs
    simp only [hs, Option.isSome_none, Bool.false_eq_true, if_false]
    have hk : k ∉ m.map Prod.fst := (mapGet_eq_none_iff m k).mp hs
    simp [List.nodup_append, h, hk]

/-! ### Index-construction lemmas -/

theorem getLast?_cons {α : Type} (x : α) (l : List α) :
    (x :: l).getLast? =
      match l.getLast? with
      | some y => some y
      | none => some x := by
  cases l with
  | nil => simp
  | cons y tl =>
      rw [List.getLast?_cons_cons]
      cases h : (y :: tl).getLast? with
      | none => simp at h
      | some z => rfl

theorem mapGet_buildIndex_loop {α : Type} (keyOf : α → String) (l : List α)
    (m : List (String × α)) (k : String) (hk : k ≠ "") :
    mapGet (l.foldl (fun m x => if keyOf x ≠ "" then mapSet m (keyOf x) x else m) m) k =
      match (l.filter (fun x => keyOf x = k)).getLast? with
      | some x => some x
      | none => mapGet m k := by
  induction l generalizing m with
  | nil => simp
  | cons x tl ih =>
      rw [List.foldl_cons]
      simp only [List.filter_cons, decide_eq_true_eq]
      by_cases hx : keyOf x = k
      · have hne : keyOf x ≠ "" := fun h => hk (hx.symm.trans h)
        rw [if_pos hne, if_pos hx, ih, getLast?_cons]
        cases htl : (tl.filter (fun y => keyOf y = k)).getLast? <;>
          simp [htl, mapGet_mapSet, hx]
      · rw [if_neg hx]
        by_cases hne : keyOf x ≠ ""
        · rw [if_pos hne, ih]
          have hx2 : ¬k = keyOf x := fun h => hx h.symm
          cases htl : (tl.filter (fun y => keyOf y = k)).getLast? <;>
            simp [htl, mapGet_mapSet, hx2]
        · rw [if_neg hne, ih]

theorem mapGet_buildIndex {α : Type} (keyOf : α → String) (l : List α) (k : String)
    (hk : k ≠ "") :
    mapGet (buildIndex keyOf l) k = (l.filter (fun x => keyOf x = k)).getLast? := by
  unfold buildIndex
  rw [mapGet_buildIndex_loop keyOf l [] k hk]
  cases h : (l.filter (fun x => keyOf x = k)).getLast? <;> simp [mapGet]

theorem mapGet_buildIndex_loop_empty {α : Type} (keyOf : α → String) (l : List α)
    (m : List (String × α)) :
    mapGet (l.foldl (fun m x => if keyOf x ≠ "" then mapSet m (keyOf x) x else m) m) "" =
      mapGet m "" := by
  induction l generalizing m with
  | nil => simp
  | cons x tl ih =>
      simp only [List.foldl_cons]
      by_cases hne : keyOf x ≠ ""
      · rw [if_pos hne, ih, mapGet_mapSet, if_neg (by exact fun h => hne h.symm)]
      · rw [if_neg hne, ih]

theorem mapGet_buildIndex_empty {α : Type} (keyOf : α → String) (l : List α) :
    mapGet (buildIndex keyOf l) "" = none := by
  unfold buildIndex
  rw [mapGet_buildIndex_loop_empty]
  simp [mapGet]

theorem nodup_keys_buildIndex_loop {α : Type} (keyOf : α → String) (l : List α)
    (m : List (String × α)) (h : (m.map Prod.fst).Nodup) :
    ((l.foldl (fun m x => if keyOf x ≠ "" then mapSet m (keyOf x) x else m) m).map
      Prod.fst).Nodup := by
  induction l generalizing m with
  | nil => simpa
  | cons x tl ih =>
      simp only [List.foldl_cons]
      by_cases hne : keyOf x ≠ ""
      · rw [if_pos hne]
        exact ih _ (nodup_keys_mapSet _ _ _ h)
      · rw [if_neg hne]
        exact ih _ h

theorem nodup_keys_buildIndex {α : Type} (keyOf : α → String) (l : List α) :
    ((buildIndex keyOf l).map Prod.fst).Nodup :=
  nodup_keys_buildIndex_loop keyOf l [] (by simp)

theorem nodup_keys_excelIndex (excelKey : String) (rows : List ExcelRow) :
    ((excelIndex excelKey rows).map Prod.fst).Nodup := by
  unfold excelIndex
  by_cases h : excelKey = "" <;> simp [h, nodup_keys_buildIndex]

theorem nodup_keys_notionIndex (notionKey : String) (pages : List NotionPage) :
    ((notionIndex notionKey pages).map Prod.fst).Nodup := by
  unfold notionIndex
  by_cases h : notionKey = "" <;> simp [h, nodup_keys_buildIndex]

/-! ### Claims C4 and C5: index deduplication direction -/

/-- C4: on both sides of the join, the index maps each trimmed non-empty key
to the last row/page in sequence order that produced that key (later entries
overwrite earlier ones), and items whose key trims to the empty string are
absent from the index. -/
theorem index_last_write (excelKey notionKey : String) (rows : List ExcelRow)
    (pages : List NotionPage) (k : String)
    (hek : excelKey ≠ "") (hnk : notionKey ≠ "") (hk : k ≠ "") :
    mapGet (excelIndex excelKey rows) k =
      (rows.filter (fun r => excelRowKey excelKey r = k)).getLast? ∧
    mapGet (notionIndex notionKey pages) k =
      (pages.filter (fun pg => notionPageKey notionKey pg = k)).getLast? ∧
    mapGet (excelIndex excelKey rows) "" = none ∧
    mapGet (notionIndex notionKey pages) "" = none := by
  unfold excelIndex notionIndex
  rw [if_neg hek, if_neg hnk]
  exact ⟨mapGet_buildIndex _ _ _ hk, mapGet_buildIndex _ _ _ hk,
    mapGet_buildIndex_empty _ _, mapGet_buildIndex_empty _ _⟩

/-- Witness for C4: with two rows (and two pages) sharing the trimmed key
`"A"`, both indexes keep the later item. -/
theorem index_last_write_witness :
    mapGet (excelIndex "K" [wRowA1, wRowA2]) "A" = some wRowA2 ∧
    mapGet (notionIndex "Key" [wPageA1, wPageA2]) "A" = some wPageA2 := by
  have h := index_last_write "K" "Key" [wRowA1, wRowA2] [wPageA1, wPageA2] "A"
    (by decide) (by decide) (by decide)
  exact ⟨h.1.trans (by decide), h.2.1.trans (by decide)⟩

/-- Counterexample to C5 as stated: two pages decode to the same key `"A"`,
and the record-store index keeps the second (last) page, not the first. -/
theorem notionIndex_first_write_cex :
    mapGet (notionIndex "Key" [wPageA1, wPageA2]) "A" = some wPageA2 ∧
    wPageA2 ≠ wPageA1 := by
  decide

/-- C5 (amended): the record-store-side index deduplicates by last write,
exactly like the spreadsheet side: among records whose key property decodes
and trims to the same non-empty string, the last one in sequence order is
kept. -/
theorem notionIndex_last_write (notionKey : String) (pages : List NotionPage)
    (k : String) (hnk : notionKey ≠ "") (hk : k ≠ "") :
    mapGet (notionIndex notionKey pages) k =
      (pages.filter (fun pg => notionPageKey notionKey pg = k)).getLast? := by
  unfold notionIndex
  rw [if_neg hnk]
  exact mapGet_buildIndex _ _ _ hk

/-- Witness for the amended C5 at a concrete pair of duplicate-key pages. -/
theorem notionIndex_last_write_witness :
    mapGet (notionIndex "Key" [wPageA1, wPageA2]) "A" = some wPageA2 :=
  (notionIndex_last_write "Key" [wPageA1, wPageA2] "A" (by decide) (by decide)).trans
    (by decide)

/-! ### Insertion-ordered set lemmas (key-universe selection) -/

theorem mem_addKey (l : List String) (k x : String) :
    x ∈ addKey l k ↔ x ∈ l ∨ x = k := by
  unfold addKey
  by_cases h : k ∈ l
  · rw [if_pos h]
    exact ⟨Or.inl, fun hx => hx.elim id (fun he => he ▸ h)⟩
  · rw [if_neg h]
    simp

theorem nodup_addKey (l : List String) (k : String) (h : l.Nodup) :
    (addKey l k).Nodup := by
  unfold addKey
  by_cases hk : k ∈ l
  · rwa [if_pos hk]
  · rw [if_neg hk]
    simp [List.nodup_append, h, hk]

theorem mem_addAll (l ks : List String) (x : String) :
    x ∈ addAll l ks ↔ x ∈ l ∨ x ∈ ks := by
  induction ks generalizing l with
  | nil => simp [addAll]
  | cons a ks ih =>
      show x ∈ addAll (addKey l a) ks ↔ _
      rw [ih, mem_addKey]
      simp only [List.mem_cons]
      tauto

theorem nodup_addAll (l ks : List String) (h : l.Nodup) : (addAll l ks).Nodup := by
  induction ks generalizing l with
  | nil => simpa [addAll]
  | cons a ks ih => exact ih _ (nodup_addKey _ _ h)

theorem mem_jsSetOf (ks : List String) (x : String) : x ∈ jsSetOf ks ↔ x ∈ ks := by
  unfold jsSetOf
  rw [mem_addAll]
  simp

theorem mem_filterFold (L R acc : List String) (x : String) :
    x ∈ L.foldl (fun ks k => if k ∈ R then addKey ks k else ks) acc ↔
      x ∈ acc ∨ (x ∈ L ∧ x ∈ R) := by
  induction L generalizing acc with
  | nil => simp
  | cons a L ih =>
      rw [List.foldl_cons]
      by_cases h : a ∈ R
      · rw [if_pos h, ih, mem_addKey]
        constructor
        · rintro ((hacc | rfl) | ⟨hL, hR⟩)
          · exact Or.inl hacc
          · exact Or.inr ⟨List.mem_cons_self _ _, h⟩
          · exact Or.inr ⟨List.mem_cons_of_mem _ hL, hR⟩
        · rintro (hacc | ⟨hL, hR⟩)
          · exact Or.inl (Or.inl hacc)
          · rcases List.mem_cons.mp hL with rfl | hL'
            · exact Or.inl (Or.inr rfl)
            · exact Or.inr ⟨hL', hR⟩
      · rw [if_neg h, ih]
        constructor
        · rintro (hacc | ⟨hL, hR⟩)
          · exact Or.inl hacc
          · exact Or.inr ⟨List.mem_cons_of_mem _ hL, hR⟩
        · rintro (hacc | ⟨hL, hR⟩)
          · exact Or.inl hacc
          · rcases List.mem_cons.mp hL with rfl | hL'
            · exact absurd hR h
            · exact Or.inr ⟨hL', hR⟩

theorem nodup_filterFold (L R acc : List String) (h : acc.Nodup) :
    (L.foldl (fun ks k => if k ∈ R then addKey ks k else ks) acc).Nodup := by
  induction L generalizing acc with
  | nil => simpa
  | cons a L ih =>
      rw [List.foldl_cons]
      by_cases ha : a ∈ R
      · rw [if_pos ha]
        exact ih _ (nodup_addKey _ _ h)
      · rw [if_neg ha]
        exact ih _ h

theorem mem_selectedKeys (jt : JoinType) (L R : List String) (x : String) :
    x ∈ selectedKeys jt L R ↔
      match jt with
      | .left => x ∈ L
      | .right => x ∈ R
      | .inner => x ∈ L ∧ x ∈ R
      | .outer => x ∈ L ∨ x ∈ R := by
  cases jt <;> simp only [selectedKeys] <;>
    simp [mem_addAll, mem_jsSetOf, mem_filterFold]

theorem nodup_selectedKeys (jt : JoinType) (L R : List String) :
    (selectedKeys jt L R).Nodup := by
  cases jt <;> simp only [selectedKeys]
  · exact nodup_addAll _ _ (by simp)
  · exact nodup_addAll _ _ (by simp)
  · exact nodup_filterFold _ _ _ (by simp)
  · exact nodup_addAll _ _ (nodup_addAll _ _ (by simp))

theorem toFinset_selectedKeys (jt : JoinType) (L R : List String) :
    (selectedKeys jt L R).toFinset =
      match jt with
      | .left => L.toFinset
      | .right => R.toFinset
      | .inner => L.toFinset ∩ R.toFinset
      | .outer => L.toFinset ∪ R.toFinset := by
  cases jt <;> (ext x; simp [mem_selectedKeys])

/-! ### Planner lemmas -/

theorem mapGet_isSome_iff {α : Type} (m : List (String × α)) (k : String) :
    (mapGet m k).isSome = true ↔ k ∈ m.map Prod.fst := by
  cases h : mapGet m k with
  | none => simp [(mapGet_eq_none_iff m k).mp h]
  | some v =>
      simp only [Option.isSome_some, true_iff]
      by_contra hk
      rw [← mapGet_eq_none_iff, h] at hk
      exact Option.noConfusion hk

theorem planForKey_singleton (cfg : MergeConfig) (eIdx : List (String × ExcelRow))
    (nIdx : List (String × NotionPage)) (k : String)
    (h : (mapGet eIdx k).isSome = true ∨ (mapGet nIdx k).isSome = true) :
    ∃ p, planForKey cfg eIdx nIdx k = [p] ∧ p.key = k := by
  cases he : mapGet eIdx k with
  | some row =>
      cases hn : mapGet nIdx k with
      | some page =>
          simp only [planForKey, he, hn]
          by_cases hc : (computeUpdateChanges cfg row page).length > 0
          · rw [if_pos hc]; exact ⟨_, rfl, rfl⟩
          · rw [if_neg hc]; exact ⟨_, rfl, rfl⟩
      | none =>
          simp only [planForKey, he, hn]
          by_cases hj : (cfg.joinType = .left ∨ cfg.joinType = .outer) ∧
              cfg.allowCreatePages = true
          · rw [if_pos hj]; exact ⟨_, rfl, rfl⟩
          · rw [if_neg hj]; exact ⟨_, rfl, rfl⟩
  | none =>
      cases hn : mapGet nIdx k with
      | some page =>
          simp only [planForKey, he, hn]
          exact ⟨_, rfl, rfl⟩
      | none => rw [he, hn] at h; simp at h

theorem key_of_mem_planForKey (cfg : MergeConfig) (eIdx : List (String × ExcelRow))
    (nIdx : List (String × NotionPage)) (k : String) (p : Plan)
    (h : p ∈ planForKey cfg eIdx nIdx k) : p.key = k := by
  unfold planForKey at h
  split at h
  · split at h <;> (rw [List.mem_singleton] at h; subst h; rfl)
  · split at h <;> (rw [List.mem_singleton] at h; subst h; rfl)
  · rw [List.mem_singleton] at h; subst h; rfl
  · simp at h

theorem mem_planForKey_update (cfg : MergeConfig) (eIdx : List (String × ExcelRow))
    (nIdx : List (String × NotionPage)) (k k' : String) (row : ExcelRow)
    (page : NotionPage) (ch : List (String × TypedProp))
    (h : Plan.update k' row page ch ∈ planForKey cfg eIdx nIdx k) :
    k' = k ∧ mapGet eIdx k = some row ∧ mapGet nIdx k = some page ∧
      ch = computeUpdateChanges cfg row page ∧ ch.length > 0 := by
  unfold planForKey at h
  split at h
  case _ r pg he hn =>
      split at h
      case _ hc =>
          rw [List.mem_singleton] at h
          injection h with h1 h2 h3 h4
          subst h1; subst h2; subst h3; subst h4
          exact ⟨rfl, he, hn, rfl, hc⟩
      case _ => rw [List.mem_singleton] at h; exact absurd h (by simp)
  case _ he hn =>
      split at h <;> (rw [List.mem_singleton] at h; exact absurd h (by simp))
  case _ => rw [List.mem_singleton] at h; exact absurd h (by simp)
  case _ => simp at h

theorem mem_planForKey_create (cfg : MergeConfig) (eIdx : List (String × ExcelRow))
    (nIdx : List (String × NotionPage)) (k k' : String) (row : ExcelRow)
    (ch : List (String × TypedProp))
    (h : Plan.create k' row ch ∈ planForKey cfg eIdx nIdx k) :
    k' = k ∧ mapGet eIdx k = some row ∧ mapGet nIdx k = none ∧
      (cfg.joinType = .left ∨ cfg.joinType = .outer) ∧ cfg.allowCreatePages = true ∧
      ch = computeCreateChanges cfg row := by
  unfold planForKey at h
  split at h
  case _ => split at h <;> (rw [List.mem_singleton] at h; exact absurd h (by simp))
  case _ r he hn =>
      split at h
      case _ hj =>
          rw [List.mem_singleton] at h
          injection h with h1 h2 h3
          subst h1; subst h2; subst h3
          exact ⟨rfl, he, hn, hj.1, hj.2, rfl⟩
      case _ => rw [List.mem_singleton] at h; exact absurd h (by simp)
  case _ => rw [List.mem_singleton] at h; exact absurd h (by simp)
  case _ => simp at h

theorem planForKey_both_empty (cfg : MergeConfig) (eIdx : List (String × ExcelRow))
    (nIdx : List (String × NotionPage)) (k : String) (row : ExcelRow) (page : NotionPage)
    (he : mapGet eIdx k = some row) (hn : mapGet nIdx k = some page)
    (hch : computeUpdateChanges cfg row page = []) :
    planForKey cfg eIdx nIdx k =
      [Plan.skip k (some row) (some page) "No changes computed"] := by
  unfold planForKey
  rw [he, hn]
  simp [hch]

theorem planForKey_source_only_skip (cfg : MergeConfig) (eIdx : List (String × ExcelRow))
    (nIdx : List (String × NotionPage)) (k : String) (row : ExcelRow)
    (he : mapGet eIdx k = some row) (hn : mapGet nIdx k = none)
    (hg : ¬((cfg.joinType = .left ∨ cfg.joinType = .outer) ∧
      cfg.allowCreatePages = true)) :
    planForKey cfg eIdx nIdx k =
      [Plan.skip k (some row) none "No matching Notion page"] := by
  unfold planForKey
  rw [he, hn]
  simp only [if_neg hg]

theorem map_key_planForKey (cfg : MergeConfig) (eIdx : List (String × ExcelRow))
    (nIdx : List (String × NotionPage)) (sel : List String)
    (h : ∀ k ∈ sel, (mapGet eIdx k).isSome = true ∨ (mapGet nIdx k).isSome = true) :
    (sel.flatMap (planForKey cfg eIdx nIdx)).map Plan.key = sel := by
  induction sel with
  | nil => simp
  | cons a sel ih =>
      obtain ⟨p, hp, hkey⟩ :=
        planForKey_singleton cfg eIdx nIdx a (h a (List.mem_cons_self a sel))
      rw [List.flatMap_cons, List.map_append, hp]
      simp [hkey, ih (fun k hk => h k (List.mem_cons_of_mem _ hk))]

/-! ### Claim C1: key-universe cardinality and one plan per key -/

/-- C1: for the indexes built from any row/page lists, the planner emits
exactly one plan per selected key (the plans' keys are exactly the selected
key universe, in order), and the number of selected keys is the claimed
cardinality for each join type: all of A for left, all of B for right,
the intersection for inner and the union for outer. -/
theorem buildPlannedUpdates_key_universe (cfg : MergeConfig) (excelKey notionKey : String)
    (rows : List ExcelRow) (pages : List NotionPage) :
    (buildPlannedUpdates cfg (excelIndex excelKey rows) (notionIndex notionKey pages)).map
        Plan.key =
      selectedKeys cfg.joinType ((excelIndex excelKey rows).map Prod.fst)
        ((notionIndex notionKey pages).map Prod.fst) ∧
    (buildPlannedUpdates cfg (excelIndex excelKey rows) (notionIndex notionKey pages)).length =
      (match cfg.joinType with
       | .left => ((excelIndex excelKey rows).map Prod.fst).toFinset.card
       | .right => ((notionIndex notionKey pages).map Prod.fst).toFinset.card
       | .inner => (((excelIndex excelKey rows).map Prod.fst).toFinset ∩
           ((notionIndex notionKey pages).map Prod.fst).toFinset).card
       | .outer => (((excelIndex excelKey rows).map Prod.fst).toFinset ∪
           ((notionIndex notionKey pages).map Prod.fst).toFinset).card) := by
  have hmem : ∀ k ∈ selectedKeys cfg.joinType
        ((excelIndex excelKey rows).map Prod.fst) ((notionIndex notionKey pages).map Prod.fst),
      (mapGet (excelIndex excelKey rows) k).isSome = true ∨
        (mapGet (notionIndex notionKey pages) k).isSome = true := by
    intro k hk
    rw [mem_selectedKeys] at hk
    cases hj : cfg.joinType with
    | left => rw [hj] at hk; exact Or.inl ((mapGet_isSome_iff _ _).mpr hk)
    | right => rw [hj] at hk; exact Or.inr ((mapGet_isSome_iff _ _).mpr hk)
    | inner => rw [hj] at hk; exact Or.inl ((mapGet_isSome_iff _ _).mpr hk.1)
    | outer =>
        rw [hj] at hk
        exact hk.elim (fun h => Or.inl ((mapGet_isSome_iff _ _).mpr h))
          (fun h => Or.inr ((mapGet_isSome_iff _ _).mpr h))
  have hmap := map_key_planForKey cfg (excelIndex excelKey rows)
    (notionIndex notionKey pages) _ hmem
  refine ⟨hmap, ?_⟩
  have hlen : (buildPlannedUpdates cfg (excelIndex excelKey rows)
      (notionIndex notionKey pages)).length =
      (selectedKeys cfg.joinType ((excelIndex excelKey rows).map Prod.fst)
        ((notionIndex notionKey pages).map Prod.fst)).length := by
    rw [← hmap, List.length_map]
    rfl
  rw [hlen, ← List.toFinset_card_of_nodup (nodup_selectedKeys cfg.joinType _ _),
    toFinset_selectedKeys]
  cases cfg.joinType <;> rfl

/-! ### Claim C2: update plans never carry empty changes -/

/-- Counterexample to C2 as stated: the skip reason emitted by the code is
`"No changes computed"` (capital N), not the claimed `"no changes
computed"`. -/
theorem no_changes_reason_cex :
    buildPlannedUpdates cfgNoMappings [("k", wRow0)] [("k", wPage0)] =
      [Plan.skip "k" (some wRow0) (some wPage0) "No changes computed"] ∧
    "No changes computed" ≠ "no changes computed" := by
  decide

/-- C2 (amended): no update plan carries an empty changes mapping, and for a
key with both sides present whose computed changes are empty, every plan
emitted for that key is the skip with reason `"No changes computed"`. -/
theorem update_changes_nonempty (cfg : MergeConfig) (eIdx : List (String × ExcelRow))
    (nIdx : List (String × NotionPage)) :
    ∀ p ∈ buildPlannedUpdates cfg eIdx nIdx,
      (∀ k row page ch, p = Plan.update k row page ch → ch ≠ []) ∧
      (∀ row page, mapGet eIdx p.key = some row → mapGet nIdx p.key = some page →
        computeUpdateChanges cfg row page = [] →
        p = Plan.skip p.key (some row) (some page) "No changes computed") := by
  intro p hp
  rw [buildPlannedUpdates, List.mem_flatMap] at hp
  obtain ⟨k, hk, hpk⟩ := hp
  have hkey := key_of_mem_planForKey cfg eIdx nIdx k p hpk
  constructor
  · intro k' row page ch hpe
    subst hpe
    obtain ⟨-, -, -, -, hlen⟩ := mem_planForKey_update cfg eIdx nIdx k k' row page ch hpk
    intro hnil
    rw [hnil] at hlen
    simp at hlen
  · intro row page he hn hch
    rw [hkey] at he hn
    rw [planForKey_both_empty cfg eIdx nIdx k row page he hn hch,
      List.mem_singleton] at hpk
    rw [hkey]
    exact hpk

/-- Witness for the amended C2: a key present on both sides with no mappings
configured yields the capital-N skip plan. -/
theorem update_changes_nonempty_witness :
    Plan.skip "k" (some wRow0) (some wPage0) "No changes computed" ∈
      buildPlannedUpdates cfgNoMappings [("k", wRow0)] [("k", wPage0)] ∧
    Plan.skip "k" (some wRow0) (some wPage0) "No changes computed" =
      Plan.skip "k" (some wRow0) (some wPage0) "No changes computed" := by
  refine ⟨by decide, ?_⟩
  have h := update_changes_nonempty cfgNoMappings [("k", wRow0)] [("k", wPage0)]
    (Plan.skip "k" (some wRow0) (some wPage0) "No changes computed") (by decide)
  exact h.2 wRow0 wPage0 (by decide) (by decide) (by decide)

/-! ### Claim C3: create-plan gating -/

/-- Counterexample to C3 as stated: the source-only skip reason emitted by
the code is `"No matching Notion page"`, not the claimed
`"no matching record"`. -/
theorem create_gating_reason_cex :
    buildPlannedUpdates cfgNoMappings [("k", wRow0)] [] =
      [Plan.skip "k" (some wRow0) none "No matching Notion page"] ∧
    "No matching Notion page" ≠ "no matching record" := by
  decide

/-- C3 (amended): a create plan occurs only for keys present in the source
index and absent from the record index, only under left/outer joins and only
with `allowCreatePages` on; with `allowCreatePages` off no create plan is
emitted at all, and a source-only key whose gate fails yields the skip plan
with reason `"No matching Notion page"`. -/
theorem create_plans_gated (cfg : MergeConfig) (eIdx : List (String × ExcelRow))
    (nIdx : List (String × NotionPage)) :
    (∀ p ∈ buildPlannedUpdates cfg eIdx nIdx, ∀ k row ch, p = Plan.create k row ch →
      mapGet eIdx k = some row ∧ mapGet nIdx k = none ∧
        (cfg.joinType = .left ∨ cfg.joinType = .outer) ∧ cfg.allowCreatePages = true) ∧
    (cfg.allowCreatePages = false →
      ∀ p ∈ buildPlannedUpdates cfg eIdx nIdx, ∀ k row ch, p ≠ Plan.create k row ch) ∧
    (∀ p ∈ buildPlannedUpdates cfg eIdx nIdx, ∀ row,
      mapGet eIdx p.key = some row → mapGet nIdx p.key = none →
      ¬((cfg.joinType = .left ∨ cfg.joinType = .outer) ∧ cfg.allowCreatePages = true) →
      p = Plan.skip p.key (some row) none "No matching Notion page") := by
  have hcreate : ∀ p ∈ buildPlannedUpdates cfg eIdx nIdx, ∀ k row ch,
      p = Plan.create k row ch →
      mapGet eIdx k = some row ∧ mapGet nIdx k = none ∧
        (cfg.joinType = .left ∨ cfg.joinType = .outer) ∧ cfg.allowCreatePages = true := by
    intro p hp k row ch hpe
    subst hpe
    rw [buildPlannedUpdates, List.mem_flatMap] at hp
    obtain ⟨k', hk', hpk⟩ := hp
    obtain ⟨rfl, he, hn, hj, ha, -⟩ :=
      mem_planForKey_create cfg eIdx nIdx k' k row ch hpk
    exact ⟨he, hn, hj, ha⟩
  refine ⟨hcreate, ?_, ?_⟩
  · intro hoff p hp k row ch hpe
    obtain ⟨-, -, -, ha⟩ := hcreate p hp k row ch hpe
    rw [hoff] at ha
    exact Bool.noConfusion ha
  · intro p hp row he hn hg
    rw [buildPlannedUpdates, List.mem_flatMap] at hp
    obtain ⟨k, hk, hpk⟩ := hp
    have hkey := key_of_mem_planForKey cfg eIdx nIdx k p hpk
    rw [hkey] at he hn
    rw [planForKey_source_only_skip cfg eIdx nIdx k row he hn hg,
      List.mem_singleton] at hpk
    rw [hkey]
    exact hpk

/-- Witness for the amended C3: with creation disabled, the source-only key
`"k"` yields the skip plan (and, by the theorem, not a create plan). -/
theorem create_plans_gated_witness :
    Plan.skip "k" (some wRow0) none "No matching Notion page" ≠
      Plan.create "k" wRow0 [] ∧
    Plan.skip "k" (some wRow0) none "No matching Notion page" =
      Plan.skip "k" (some wRow0) none "No matching Notion page" := by
  have h := create_plans_gated cfgNoMappings [("k", wRow0)] []
  refine ⟨h.2.1 rfl _ (by decide) "k" wRow0 [], ?_⟩
  exact h.2.2 _ (by decide) wRow0 (by decide) (by decide) (by decide)

/-! ### Claim C9: blank cells encode to the number 0 -/

/-- C9: the empty-string cell value encodes, at target type number, to the
typed value `{number: 0}` (because `Number("")` is `0` and finite), and
consequently a blank cell mapped onto a number property stages an update
writing 0 rather than being dropped. -/
theorem blank_cell_number_zero :
    buildNotionPropertyValue "number" (.str "") = some (.number (some 0)) ∧
    buildPlannedUpdates cfgNumber [("k", wRow0)] [("k", wPage0)] =
      [Plan.update "k" wRow0 wPage0 [("Amt", .number (some 0))]] := by
  decide

/-! ### Claim C8: decoding of title/rich_text values -/

/-- Counterexample to C8 as stated: decoding a rich_text value whose run
list is present but empty yields the empty string, not null. -/
theorem text_decode_empty_cex :
    getNotionPropertyPlainValue (some (.rich_text (some []))) = .pstr "" ∧
    (PlainVal.pstr "" : PlainVal) ≠ .pnull := by
  decide

/-- C8 (amended): for both title and rich_text values, decode returns null
only when the run list itself is absent (null payload) — a present list
never decodes to null; when a run list is present, decode returns the first
run's plain content trimmed, which is the empty string when the list is
empty or the first run carries no plain content. -/
theorem text_decode_spec (r : TextRun) (rs : List TextRun) (s : String) :
    getNotionPropertyPlainValue (some (.title none)) = .pnull ∧
    getNotionPropertyPlainValue (some (.rich_text none)) = .pnull ∧
    getNotionPropertyPlainValue (some (.title (some []))) = .pstr "" ∧
    getNotionPropertyPlainValue (some (.rich_text (some []))) = .pstr "" ∧
    getNotionPropertyPlainValue (some (.title (some rs))) ≠ .pnull ∧
    getNotionPropertyPlainValue (some (.rich_text (some rs))) ≠ .pnull ∧
    (r.plain_text = some s →
      getNotionPropertyPlainValue (some (.title (some (r :: rs)))) = .pstr (jsTrim s) ∧
      getNotionPropertyPlainValue (some (.rich_text (some (r :: rs)))) =
        .pstr (jsTrim s)) ∧
    (r.plain_text = none →
      getNotionPropertyPlainValue (some (.title (some (r :: rs)))) = .pstr "" ∧
      getNotionPropertyPlainValue (some (.rich_text (some (r :: rs)))) = .pstr "") := by
  refine ⟨rfl, rfl, rfl, rfl, ?_, ?_, ?_, ?_⟩
  · rw [show getNotionPropertyPlainValue (some (.title (some rs))) =
      .pstr (jsTrim (firstPlainText rs)) from rfl]
    simp
  · rw [show getNotionPropertyPlainValue (some (.rich_text (some rs))) =
      .pstr (jsTrim (firstPlainText rs)) from rfl]
    simp
  · intro h
    constructor <;> simp [getNotionPropertyPlainValue, firstPlainText, h]
  · intro h
    have hfp : firstPlainText (r :: rs) = "" := by simp [firstPlainText, h]
    constructor <;> (simp only [getNotionPropertyPlainValue, hfp]; decide)

/-- Witness for the amended C8: a run with padded plain text decodes to its
trimmed content, an absent run list decodes to null, and a rich_text run
without plain content decodes to the empty string. -/
theorem text_decode_spec_witness :
    getNotionPropertyPlainValue
      (some (.title (some [⟨some "x", some " hi "⟩]))) = .pstr "hi" ∧
    getNotionPropertyPlainValue (some (.title none)) = .pnull ∧
    getNotionPropertyPlainValue
      (some (.rich_text (some [⟨some "x", none⟩]))) = .pstr "" := by
  have h := text_decode_spec ⟨some "x", some " hi "⟩ [] " hi "
  have h2 := text_decode_spec ⟨some "x", none⟩ [] ""
  exact ⟨((h.2.2.2.2.2.2.1 rfl).1).trans (by decide), h.1,
    (h2.2.2.2.2.2.2.2 rfl).2⟩

/-! ### Claim C6: encode/decode round trip -/

theorem buildNPV_title (v : JVal) (hv : ¬(v = .undefined ∨ v = .null)) :
    buildNotionPropertyValue "title" v =
      some (.title (some [⟨some (jsString v), none⟩])) := by
  unfold buildNotionPropertyValue
  rw [if_neg hv, if_pos rfl]

theorem buildNPV_rich_text (v : JVal) (hv : ¬(v = .undefined ∨ v = .null)) :
    buildNotionPropertyValue "rich_text" v =
      some (.rich_text (some [⟨some (jsString v), none⟩])) := by
  unfold buildNotionPropertyValue
  rw [if_neg hv, if_neg (by decide), if_pos rfl]

theorem buildNPV_date (v : JVal) (hv : ¬(v = .undefined ∨ v = .null)) :
    buildNotionPropertyValue "date" v =
      (jsDateIso v).map (fun d => .date (some d)) := by
  unfold buildNotionPropertyValue
  rw [if_neg hv, if_neg (by decide), if_neg (by decide), if_neg (by decide),
    if_neg (by decide), if_neg (by decide), if_neg (by decide), if_neg (by decide),
    if_neg (by decide), if_pos rfl]

/-- Counterexample to C6 as stated: encoding `"hello"` at type title yields
a defined typed value, but decoding it returns the empty string rather than
`"hello"` — the encoder populates only the outgoing text content while the
decoder reads only the API-populated plain_text. -/
theorem codec_roundtrip_cex :
    (buildNotionPropertyValue "title" (.str "hello")).isSome = true ∧
    getNotionPropertyPlainValue (buildNotionPropertyValue "title" (.str "hello")) ≠
      .pstr "hello" := by
  decide

/-- C6 (amended): the round trip holds for number (decode returns exactly
the finite `Number(original)`, compared as numbers), for
email/url/phone_number/status on string inputs (recovered verbatim), for
select on non-empty strings (the empty string encodes a cleared field that
decodes to null), for multi_select up to the documented name normalization
(decode is the comma-space join of the staged option names: the original
array's names resp. the CSV split of the original string, empty names
dropped), and for date on ISO date-only strings (recovered verbatim);
it fails for title and rich_text on every encodable value (decode of the
encoded text value is the empty string, because encode populates only
text.content while decode reads only plain_text), and for checkbox on every
accepted token (decode canonicalizes every truthy token to `"true"` and
every falsy token to `"false"`). -/
theorem codec_roundtrip_amended :
    (∀ (v : JVal) (n : ℚ), jsNumber v = some n → v ≠ .undefined → v ≠ .null →
      getNotionPropertyPlainValue (buildNotionPropertyValue "number" v) = .pnum n) ∧
    (∀ s : String,
      getNotionPropertyPlainValue (buildNotionPropertyValue "email" (.str s)) = .pstr s) ∧
    (∀ s : String,
      getNotionPropertyPlainValue (buildNotionPropertyValue "url" (.str s)) = .pstr s) ∧
    (∀ s : String,
      getNotionPropertyPlainValue (buildNotionPropertyValue "phone_number" (.str s)) =
        .pstr s) ∧
    (∀ s : String,
      getNotionPropertyPlainValue (buildNotionPropertyValue "status" (.str s)) = .pstr s) ∧
    (∀ s : String, s ≠ "" →
      getNotionPropertyPlainValue (buildNotionPropertyValue "select" (.str s)) = .pstr s) ∧
    getNotionPropertyPlainValue (buildNotionPropertyValue "select" (.str "")) = .pnull ∧
    (∀ names : List String,
      getNotionPropertyPlainValue (buildNotionPropertyValue "multi_select"
        (.strList names)) = .pstr (String.intercalate ", " (names.filter (· ≠ "")))) ∧
    (∀ s : String,
      getNotionPropertyPlainValue (buildNotionPropertyValue "multi_select" (.str s)) =
        .pstr (String.intercalate ", " ((splitCSV s).filter (· ≠ "")))) ∧
    (∀ s d : String, jsDateIso (.str s) = some d →
      getNotionPropertyPlainValue (buildNotionPropertyValue "date" (.str s)) =
        .pstr s) ∧
    (∀ v : JVal, v ≠ .undefined → v ≠ .null →
      getNotionPropertyPlainValue (buildNotionPropertyValue "title" v) = .pstr "" ∧
      getNotionPropertyPlainValue (buildNotionPropertyValue "rich_text" v) =
        .pstr "") ∧
    (∀ v ∈ checkboxTruthy,
      getNotionPropertyPlainValue (buildNotionPropertyValue "checkbox" v) =
        .pstr "true") ∧
    (∀ v ∈ checkboxFalsy,
      getNotionPropertyPlainValue (buildNotionPropertyValue "checkbox" v) =
        .pstr "false") := by
  refine ⟨?_, fun s => rfl, fun s => rfl, fun s => rfl, fun s => rfl, ?_, by decide,
    fun names => rfl, ?_, ?_, ?_, ?_, ?_⟩
  · intro v n hnum hu hn
    have h1 : buildNotionPropertyValue "number" v =
        (jsNumber v).map (fun m => .number (some m)) := by
      unfold buildNotionPropertyValue
      rw [if_neg (by simp [hu, hn]), if_neg (by decide), if_neg (by decide), if_pos rfl]
    rw [h1, hnum]
    rfl
  · intro s hs
    have h1 : buildNotionPropertyValue "select" (.str s) =
        some (.select (if JVal.str s = .str "" then none
          else some (jsString (.str s)))) := rfl
    rw [h1, if_neg (fun hh : JVal.str s = .str "" => hs (by injection hh))]
    rfl
  · intro s
    show PlainVal.pstr (String.intercalate ", "
      (((splitCSV s).filter (· ≠ "")).filter (· ≠ ""))) = _
    rw [List.filter_filter]
    simp
  · intro s d hd
    have hv : ¬(JVal.str s = .undefined ∨ JVal.str s = .null) := by simp
    have hds : d = s := by
      have hd' : (if validIsoDate s.data then some s else none) = some d := hd
      by_cases hvd : validIsoDate s.data = true
      · rw [if_pos hvd] at hd'
        exact (Option.some.inj hd').symm
      · rw [if_neg hvd] at hd'
        exact Option.noConfusion hd'
    rw [buildNPV_date _ hv, hd, hds]
    rfl
  · intro v hu hn
    have hv : ¬(v = .undefined ∨ v = .null) := by simp [hu, hn]
    constructor
    · rw [buildNPV_title v hv]
      rfl
    · rw [buildNPV_rich_text v hv]
      rfl
  · intro v hv
    simp only [checkboxTruthy, List.mem_cons, List.not_mem_nil, or_false] at hv
    rcases hv with rfl | rfl | rfl | rfl | rfl | rfl <;> decide
  · intro v hv
    simp only [checkboxFalsy, List.mem_cons, List.not_mem_nil, or_false] at hv
    rcases hv with rfl | rfl | rfl | rfl | rfl | rfl | rfl <;> decide

/-- Witness for the amended C6 at concrete inputs: a numeric value, a
string value, a select value and a date-only string survive the round trip,
while a title value decodes to the empty string and a truthy checkbox token
canonicalizes to `"true"`. -/
theorem codec_roundtrip_amended_witness :
    getNotionPropertyPlainValue (buildNotionPropertyValue "number" (.num 5)) =
      .pnum 5 ∧
    getNotionPropertyPlainValue (buildNotionPropertyValue "email" (.str "hi")) =
      .pstr "hi" ∧
    getNotionPropertyPlainValue (buildNotionPropertyValue "select" (.str "x")) =
      .pstr "x" ∧
    getNotionPropertyPlainValue (buildNotionPropertyValue "date"
      (.str "2024-01-02")) = .pstr "2024-01-02" ∧
    getNotionPropertyPlainValue (buildNotionPropertyValue "title" (.str "hello")) =
      .pstr "" ∧
    getNotionPropertyPlainValue (buildNotionPropertyValue "checkbox" (.bool true)) =
      .pstr "true" := by
  refine ⟨codec_roundtrip_amended.1 (.num 5) 5 rfl (by decide) (by decide),
    codec_roundtrip_amended.2.1 "hi",
    codec_roundtrip_amended.2.2.2.2.2.1 "x" (by decide),
    codec_roundtrip_amended.2.2.2.2.2.2.2.2.2.1 "2024-01-02" "2024-01-02" (by decide),
    (codec_roundtrip_amended.2.2.2.2.2.2.2.2.2.2.1 (.str "hello")
      (by decide) (by decide)).1,
    codec_roundtrip_amended.2.2.2.2.2.2.2.2.2.2.2.1 (.bool true) (by decide)⟩

/-! ### Claim C10: progress reporting of the execution loop -/

theorem execStep_done (n : Nat) (st : ExecState) (p : Plan) :
    (execStep n st p).done = st.done + 1 := by
  cases p <;> rfl

theorem execStep_progress (n : Nat) (st : ExecState) (p : Plan) :
    (execStep n st p).progress = jsRound (((st.done + 1 : Nat) : ℚ) / (n : ℚ) * 100) := by
  cases p <;> rfl

theorem execStep_skip_requests (n : Nat) (st : ExecState) (k : String)
    (e : Option ExcelRow) (pg : Option NotionPage) (r : String) :
    (execStep n st (Plan.skip k e pg r)).patchRequests = st.patchRequests ∧
    (execStep n st (Plan.skip k e pg r)).createRequests = st.createRequests :=
  ⟨rfl, rfl⟩

theorem runPlans_loop (plans : List Plan) (n : Nat) (st : ExecState) :
    ((plans.foldl (execStep n) st).done = st.done + plans.length) ∧
    (plans ≠ [] → (plans.foldl (execStep n) st).progress =
      jsRound (((st.done + plans.length : Nat) : ℚ) / (n : ℚ) * 100)) ∧
    ((∀ p ∈ plans, ∃ k e pg r, p = Plan.skip k e pg r) →
      (plans.foldl (execStep n) st).patchRequests = st.patchRequests ∧
      (plans.foldl (execStep n) st).createRequests = st.createRequests) := by
  induction plans generalizing st with
  | nil => simp
  | cons p ps ih =>
      rw [List.foldl_cons]
      obtain ⟨ihdone, ihprog, ihreq⟩ := ih (execStep n st p)
      refine ⟨?_, ?_, ?_⟩
      · rw [ihdone, List.length_cons]
        have hstep := execStep_done n st p
        omega
      · intro _
        cases hps : ps with
        | nil =>
            simp only [hps, List.foldl_nil, execStep_progress, List.length_cons,
              List.length_nil]
        | cons q qs =>
            rw [← hps]
            have hne : ps ≠ [] := by rw [hps]; exact List.cons_ne_nil _ _
            have harg : (execStep n st p).done + ps.length = st.done + (ps.length + 1) := by
              have hstep := execStep_done n st p
              omega
            rw [ihprog hne, harg, List.length_cons]
      · intro hall
        obtain ⟨k, e, pg, r, hp⟩ := hall p (List.mem_cons_self _ _)
        subst hp
        obtain ⟨h1, h2⟩ := ihreq (fun q hq => hall q (List.mem_cons_of_mem _ hq))
        rw [h1, h2]
        exact execStep_skip_requests n st k e pg r

/-- C10: the completed-count is incremented once per plan, including skip
plans that issue no request; for every non-empty plan list the final
reported progress is exactly 100, and an all-skip plan list issues no
page-update and no page-create request. -/
theorem progress_reaches_100 (plans : List Plan) (h : plans ≠ []) :
    (runPlans plans).done = plans.length ∧
    (runPlans plans).progress = 100 ∧
    ((∀ p ∈ plans, ∃ k e pg r, p = Plan.skip k e pg r) →
      (runPlans plans).patchRequests = 0 ∧ (runPlans plans).createRequests = 0) := by
  obtain ⟨hdone, hprog, hreq⟩ := runPlans_loop plans plans.length ⟨0, 0, 0, 0⟩
  refine ⟨by simpa using hdone, ?_, by simpa using hreq⟩
  rw [runPlans, hprog h]
  have hn : ((plans.length : Nat) : ℚ) ≠ 0 := by
    have hpos : 0 < plans.length := List.length_pos.mpr h
    exact Nat.cast_ne_zero.mpr (Nat.pos_iff_ne_zero.mp hpos)
  have hval : (((0 + plans.length : Nat) : ℚ) / ((plans.length : Nat) : ℚ) * 100 : ℚ) =
      100 := by
    rw [Nat.zero_add, div_self hn, one_mul]
  rw [hval]
  unfold jsRound
  have : ((100 : ℚ) + 1 / 2) = ((100 : ℤ) : ℚ) + 1 / 2 := by norm_num
  rw [this, add_comm, Int.floor_add_int]
  norm_num

/-- Witness for C10: a single skip plan finishes at progress 100 with no
requests issued. -/
theorem progress_reaches_100_witness :
    (runPlans [wSkipPlan]).progress = 100 ∧
    (runPlans [wSkipPlan]).patchRequests = 0 ∧
    (runPlans [wSkipPlan]).createRequests = 0 := by
  have h := progress_reaches_100 [wSkipPlan] (by simp)
  refine ⟨h.2.1, h.2.2 ?_⟩
  intro p hp
  rw [List.mem_singleton] at hp
  exact ⟨"x", none, none, "No matching Excel row", hp.trans rfl⟩

/-! ### First-seen deduplication lemmas -/

theorem mem_firstSeenAux (l : List String) (seen : List String) (a : String) :
    a ∈ firstSeenAux l seen ↔ a ∈ l ∧ a ∉ seen := by
  induction l generalizing seen with
  | nil => simp [firstSeenAux]
  | cons x xs ih =>
      by_cases hx : x ∈ seen
      · have e1 : firstSeenAux (x :: xs) seen = firstSeenAux xs seen := by
          simp only [firstSeenAux, if_pos hx]
        rw [e1, ih]
        constructor
        · rintro ⟨h1, h2⟩
          exact ⟨List.mem_cons_of_mem _ h1, h2⟩
        · rintro ⟨h1, h2⟩
          rcases List.mem_cons.mp h1 with rfl | h1'
          · exact absurd hx h2
          · exact ⟨h1', h2⟩
      · have e1 : firstSeenAux (x :: xs) seen = x :: firstSeenAux xs (x :: seen) := by
          simp only [firstSeenAux, if_neg hx]
        rw [e1, List.mem_cons, ih]
        constructor
        · rintro (rfl | ⟨h1, h2⟩)
          · exact ⟨List.mem_cons_self _ _, hx⟩
          · exact ⟨List.mem_cons_of_mem _ h1, fun hs => h2 (List.mem_cons_of_mem _ hs)⟩
        · rintro ⟨h1, h2⟩
          rcases List.mem_cons.mp h1 with rfl | h1'
          · exact Or.inl rfl
          · by_cases hax : a = x
            · exact Or.inl hax
            · exact Or.inr ⟨h1', fun hs => (List.mem_cons.mp hs).elim hax h2⟩

theorem mem_firstSeen (l : List String) (a : String) : a ∈ firstSeen l ↔ a ∈ l := by
  unfold firstSeen
  rw [mem_firstSeenAux]
  simp

theorem firstSeenAux_append_singleton (l : List String) (a : String)
    (seen : List String) :
    firstSeenAux (l ++ [a]) seen =
      if a ∈ l ∨ a ∈ seen then firstSeenAux l seen
      else firstSeenAux l seen ++ [a] := by
  induction l generalizing seen with
  | nil =>
      by_cases ha : a ∈ seen
      · simp only [List.nil_append, firstSeenAux, if_pos ha, if_pos (Or.inr ha)]
      · have : ¬(a ∈ ([] : List String) ∨ a ∈ seen) := by simp [ha]
        simp only [List.nil_append, firstSeenAux, if_neg ha, if_neg this]
        try rfl
  | cons x xs ih =>
      by_cases hx : x ∈ seen
      · have e1 : firstSeenAux ((x :: xs) ++ [a]) seen = firstSeenAux (xs ++ [a]) seen := by
          simp only [List.cons_append, firstSeenAux, if_pos hx]
          rfl
        have e2 : firstSeenAux (x :: xs) seen = firstSeenAux xs seen := by
          simp only [firstSeenAux, if_pos hx]
        rw [e1, e2, ih]
        by_cases hc : a ∈ xs ∨ a ∈ seen
        · have hc2 : a ∈ x :: xs ∨ a ∈ seen :=
            hc.elim (fun h => Or.inl (List.mem_cons_of_mem _ h)) Or.inr
          rw [if_pos hc, if_pos hc2]
        · have hc2 : ¬(a ∈ x :: xs ∨ a ∈ seen) := by
            rintro (h1 | h2)
            · rcases List.mem_cons.mp h1 with rfl | h1'
              · exact hc (Or.inr hx)
              · exact hc (Or.inl h1')
            · exact hc (Or.inr h2)
          rw [if_neg hc, if_neg hc2]
      · have e1 : firstSeenAux ((x :: xs) ++ [a]) seen =
            x :: firstSeenAux (xs ++ [a]) (x :: seen) := by
          simp only [List.cons_append, firstSeenAux, if_neg hx]
          rfl
        have e2 : firstSeenAux (x :: xs) seen = x :: firstSeenAux xs (x :: seen) := by
          simp only [firstSeenAux, if_neg hx]
        rw [e1, e2, ih]
        by_cases hc : a ∈ xs ∨ a ∈ x :: seen
        · have hc2 : a ∈ x :: xs ∨ a ∈ seen := by
            rcases hc with h1 | h2
            · exact Or.inl (List.mem_cons_of_mem _ h1)
            · rcases List.mem_cons.mp h2 with rfl | h2'
              · exact Or.inl (List.mem_cons_self _ _)
              · exact Or.inr h2'
          rw [if_pos hc, if_pos hc2]
        · have hc2 : ¬(a ∈ x :: xs ∨ a ∈ seen) := by
            rintro (h1 | h2)
            · rcases List.mem_cons.mp h1 with rfl | h1'
              · exact hc (Or.inr (List.mem_cons_self _ _))
              · exact hc (Or.inl h1')
            · exact hc (Or.inr (List.mem_cons_of_mem _ h2))
          rw [if_neg hc, if_neg hc2]
          rfl

theorem firstSeen_append_singleton (l : List String) (a : String) :
    firstSeen (l ++ [a]) = if a ∈ l then firstSeen l else firstSeen l ++ [a] := by
  unfold firstSeen
  rw [firstSeenAux_append_singleton]
  simp

/-! ### Referenced-name lemmas -/

theorem namesFor_append (l₁ l₂ : List (NotionPropertyDef × String)) (N : String) :
    namesFor (l₁ ++ l₂) N = namesFor l₁ N ++ namesFor l₂ N := by
  unfold namesFor
  rw [List.filter_append, List.map_append]

theorem namesFor_singleton (prop : NotionPropertyDef) (nm N : String) :
    namesFor [(prop, nm)] N = if prop.name = N then [nm] else [] := by
  unfold namesFor
  by_cases h : prop.name = N <;> simp [h]

theorem mem_namesFor (needed : List (NotionPropertyDef × String)) (N nm : String) :
    nm ∈ namesFor needed N ↔ ∃ prop, (prop, nm) ∈ needed ∧ prop.name = N := by
  unfold namesFor
  constructor
  · intro h
    obtain ⟨pn, hpn, hnm⟩ := List.mem_map.mp h
    obtain ⟨hmem, hname⟩ := List.mem_filter.mp hpn
    refine ⟨pn.1, ?_, by simpa using hname⟩
    have : (pn.1, nm) = pn := by rw [← hnm]
    rwa [this]
  · rintro ⟨prop, hmem, hname⟩
    exact List.mem_map.mpr ⟨(prop, nm),
      List.mem_filter.mpr ⟨hmem, by simpa using hname⟩, rfl⟩

/-! ### Coherence of the needed-option collection -/

theorem neededFromChange_coherent (dbProps : List NotionPropertyDef)
    (propName : String) (val : TypedProp) :
    ∀ pn ∈ neededFromChange dbProps propName val,
      findProp dbProps pn.1.name = some pn.1 := by
  intro pn h
  unfold neededFromChange at h
  cases hfp : findProp dbProps propName with
  | none => rw [hfp] at h; simp at h
  | some pd =>
      rw [hfp] at h
      have hname : pd.name = propName := by
        have := List.find?_some hfp
        simpa using this
      have hgoal : ∀ nm : String, pn = (pd, nm) →
          findProp dbProps pn.1.name = some pn.1 := by
        intro nm hpe
        rw [hpe]
        show findProp dbProps pd.name = some pd
        rw [hname]
        exact hfp
      rcases List.mem_append.mp h with h12 | hseg
      · rcases List.mem_append.mp h12 with hseg | hseg
        · repeat' split at hseg
          all_goals
            first
            | exact absurd hseg (List.not_mem_nil _)
            | exact hgoal _ (List.mem_singleton.mp hseg)
            | (obtain ⟨nm, -, hpn⟩ := List.mem_map.mp hseg
               exact hgoal nm hpn.symm)
        · repeat' split at hseg
          all_goals
            first
            | exact absurd hseg (List.not_mem_nil _)
            | exact hgoal _ (List.mem_singleton.mp hseg)
            | (obtain ⟨nm, -, hpn⟩ := List.mem_map.mp hseg
               exact hgoal nm hpn.symm)
      · repeat' split at hseg
        all_goals
          first
          | exact absurd hseg (List.not_mem_nil _)
          | exact hgoal _ (List.mem_singleton.mp hseg)
          | (obtain ⟨nm, -, hpn⟩ := List.mem_map.mp hseg
             exact hgoal nm hpn.symm)

theorem collectNeeded_coherent (plans : List Plan) (dbProps : List NotionPropertyDef) :
    ∀ pn ∈ collectNeeded plans dbProps, findProp dbProps pn.1.name = some pn.1 := by
  intro pn hpn
  rw [collectNeeded, List.mem_flatMap] at hpn
  obtain ⟨p, hp, hpn⟩ := hpn
  cases hch : planChanges p with
  | none => rw [hch] at hpn; simp at hpn
  | some changes =>
      rw [hch, List.mem_flatMap] at hpn
      obtain ⟨e, he, hpn⟩ := hpn
      exact neededFromChange_coherent dbProps e.1 e.2 pn hpn

/-! ### Grouping invariant of the option reconciler -/

theorem insertGroup_invariant (done : List (NotionPropertyDef × String))
    (acc : List (String × NotionPropertyDef × List String))
    (prop : NotionPropertyDef) (nm : String)
    (hacc : ∀ g ∈ acc, g.2.1.name = g.1 ∧ (∃ nm0, (g.2.1, nm0) ∈ done) ∧
      g.2.2 = firstSeen (namesFor done g.1))
    (hkeys : (acc.map Prod.fst).Nodup)
    (hcover : ∀ pn ∈ done, ∃ g ∈ acc, g.1 = pn.1.name) :
    (∀ g ∈ insertGroup acc prop nm, g.2.1.name = g.1 ∧
      (∃ nm0, (g.2.1, nm0) ∈ done ++ [(prop, nm)]) ∧
      g.2.2 = firstSeen (namesFor (done ++ [(prop, nm)]) g.1)) ∧
    ((insertGroup acc prop nm).map Prod.fst).Nodup ∧
    (∀ pn ∈ done ++ [(prop, nm)], ∃ g ∈ insertGroup acc prop nm, g.1 = pn.1.name) := by
  have hnfA : ∀ N : String, N ≠ prop.name →
      namesFor (done ++ [(prop, nm)]) N = namesFor done N := by
    intro N hN
    rw [namesFor_append, namesFor_singleton, if_neg (fun hh => hN hh.symm)]
    simp
  have hnfP : namesFor (done ++ [(prop, nm)]) prop.name =
      namesFor done prop.name ++ [nm] := by
    rw [namesFor_append, namesFor_singleton, if_pos rfl]
  cases hfind : acc.find? (fun g => g.1 = prop.name) with
  | some g0 =>
      have hins : insertGroup acc prop nm = acc.map (fun g =>
          if g.1 = prop.name then
            (g.1, g.2.1, if nm ∈ g.2.2 then g.2.2 else g.2.2 ++ [nm])
          else g) := by
        unfold insertGroup
        rw [hfind]
      have hg0mem : g0 ∈ acc := List.mem_of_find?_eq_some hfind
      have hg0key : g0.1 = prop.name := by
        have := List.find?_some hfind
        simpa using this
      have hkeyeq : ((insertGroup acc prop nm).map Prod.fst) = acc.map Prod.fst := by
        rw [hins, List.map_map]
        congr 1
        funext g
        by_cases h : g.1 = prop.name <;> simp [h]
      refine ⟨?_, by rw [hkeyeq]; exact hkeys, ?_⟩
      · intro g hg
        rw [hins] at hg
        obtain ⟨g', hg'mem, hg'eq⟩ := List.mem_map.mp hg
        obtain ⟨hname', ⟨nm0, hnm0⟩, hnames'⟩ := hacc g' hg'mem
        by_cases hk : g'.1 = prop.name
        · have hgeq : g = (g'.1, g'.2.1,
              if nm ∈ g'.2.2 then g'.2.2 else g'.2.2 ++ [nm]) := by
            rw [← hg'eq, if_pos hk]
          rw [hgeq]
          refine ⟨hname', ⟨nm0, List.mem_append_left _ hnm0⟩, ?_⟩
          have hmemiff : nm ∈ g'.2.2 ↔ nm ∈ namesFor done prop.name := by
            rw [hnames', mem_firstSeen, hk]
          rw [hk, hnfP, firstSeen_append_singleton]
          by_cases hnm : nm ∈ namesFor done prop.name
          · rw [if_pos (hmemiff.mpr hnm), if_pos hnm, hnames', hk]
          · rw [if_neg (fun hh => hnm (hmemiff.mp hh)), if_neg hnm, hnames', hk]
        · have hgeq : g = g' := by rw [← hg'eq, if_neg hk]
          rw [hgeq]
          exact ⟨hname', ⟨nm0, List.mem_append_left _ hnm0⟩, by rw [hnfA g'.1 hk, hnames']⟩
      · intro pn hpn
        rcases List.mem_append.mp hpn with hd | hnew
        · obtain ⟨g, hgmem, hgkey⟩ := hcover pn hd
          refine ⟨_, by rw [hins]; exact List.mem_map_of_mem _ hgmem, ?_⟩
          have hfst : (if g.1 = prop.name then
              (g.1, g.2.1, if nm ∈ g.2.2 then g.2.2 else g.2.2 ++ [nm]) else g).1 = g.1 := by
            by_cases h : g.1 = prop.name <;> simp [h]
          exact hfst.trans hgkey
        · rw [List.mem_singleton] at hnew
          refine ⟨_, by rw [hins]; exact List.mem_map_of_mem _ hg0mem, ?_⟩
          have hfst : (if g0.1 = prop.name then
              (g0.1, g0.2.1, if nm ∈ g0.2.2 then g0.2.2 else g0.2.2 ++ [nm]) else g0).1 =
              g0.1 := by
            by_cases h : g0.1 = prop.name <;> simp [h]
          rw [hnew]
          exact hfst.trans hg0key
  | none =>
      have hins : insertGroup acc prop nm = acc ++ [(prop.name, prop, [nm])] := by
        unfold insertGroup
        rw [hfind]
      have hnotin : ∀ g ∈ acc, g.1 ≠ prop.name := by
        intro g hg
        have := List.find?_eq_none.mp hfind g hg
        simpa using this
      have hempty : namesFor done prop.name = [] := by
        by_contra hne
        obtain ⟨nm', hnm'⟩ := List.exists_mem_of_ne_nil _ hne
        obtain ⟨prop', hmem', hname'⟩ := (mem_namesFor done prop.name nm').mp hnm'
        obtain ⟨g, hgmem, hgkey⟩ := hcover (prop', nm') hmem'
        exact hnotin g hgmem (hgkey.trans hname')
      refine ⟨?_, ?_, ?_⟩
      · intro g hg
        rw [hins] at hg
        rcases List.mem_append.mp hg with hold | hnew
        · obtain ⟨hname', ⟨nm0, hnm0⟩, hnames'⟩ := hacc g hold
          exact ⟨hname', ⟨nm0, List.mem_append_left _ hnm0⟩,
            by rw [hnfA g.1 (hnotin g hold), hnames']⟩
        · rw [List.mem_singleton] at hnew
          rw [hnew]
          refine ⟨rfl, ⟨nm, List.mem_append_right _ (List.mem_singleton.mpr rfl)⟩, ?_⟩
          rw [hnfP, hempty]
          rfl
      · rw [hins, List.map_append]
        have hpn : prop.name ∉ acc.map Prod.fst := by
          intro hmem
          obtain ⟨g, hgmem, hgeq⟩ := List.mem_map.mp hmem
          exact hnotin g hgmem hgeq
        simp [List.nodup_append, hkeys, hpn]
      · intro pn hpn
        rcases List.mem_append.mp hpn with hd | hnew
        · obtain ⟨g, hgmem, hgkey⟩ := hcover pn hd
          exact ⟨g, by rw [hins]; exact List.mem_append_left _ hgmem, hgkey⟩
        · rw [List.mem_singleton] at hnew
          refine ⟨(prop.name, prop, [nm]),
            by rw [hins]; exact List.mem_append_right _ (List.mem_singleton.mpr rfl), ?_⟩
          rw [hnew]

theorem groupLoop_spec (todo : List (NotionPropertyDef × String)) :
    ∀ (done : List (NotionPropertyDef × String))
      (acc : List (String × NotionPropertyDef × List String)),
      (∀ g ∈ acc, g.2.1.name = g.1 ∧ (∃ nm0, (g.2.1, nm0) ∈ done) ∧
        g.2.2 = firstSeen (namesFor done g.1)) →
      ((acc.map Prod.fst).Nodup) →
      (∀ pn ∈ done, ∃ g ∈ acc, g.1 = pn.1.name) →
      ∀ g ∈ todo.foldl (fun a pn => insertGroup a pn.1 pn.2) acc,
        g.2.1.name = g.1 ∧ (∃ nm0, (g.2.1, nm0) ∈ done ++ todo) ∧
        g.2.2 = firstSeen (namesFor (done ++ todo) g.1) := by
  induction todo with
  | nil =>
      intro done acc hacc hkeys hcover g hg
      rw [List.foldl_nil] at hg
      obtain ⟨h1, h2, h3⟩ := hacc g hg
      exact ⟨h1, by simpa using h2, by simpa using h3⟩
  | cons pn todo ih =>
      intro done acc hacc hkeys hcover g hg
      rw [List.foldl_cons] at hg
      obtain ⟨hacc', hkeys', hcover'⟩ :=
        insertGroup_invariant done acc pn.1 pn.2 hacc hkeys hcover
      have hpn : done ++ [(pn.1, pn.2)] = done ++ [pn] := by simp
      rw [hpn] at hacc' hcover'
      have := ih (done ++ [pn]) (insertGroup acc pn.1 pn.2) hacc' hkeys' hcover' g hg
      simpa [List.append_assoc] using this

theorem groupNeeded_spec (needed : List (NotionPropertyDef × String)) :
    ∀ g ∈ groupNeeded needed,
      g.2.1.name = g.1 ∧ (∃ nm0, (g.2.1, nm0) ∈ needed) ∧
      g.2.2 = firstSeen (namesFor needed g.1) := by
  intro g hg
  have := groupLoop_spec needed [] [] (by simp) (by simp) (by simp) g hg
  simpa using this

/-! ### Payload characterization of the option reconciler -/

theorem mem_foldl_append_ite {α β : Type} (C : α → Prop) [DecidablePred C] (f : α → β)
    (l : List α) (init : List β) (e : β) :
    e ∈ l.foldl (fun ups g => if C g then ups ++ [f g] else ups) init ↔
      e ∈ init ∨ ∃ g ∈ l, C g ∧ e = f g := by
  induction l generalizing init with
  | nil => simp
  | cons a l ih =>
      rw [List.foldl_cons]
      by_cases h : C a
      · rw [if_pos h, ih]
        constructor
        · rintro (hi | ⟨g, hg, hC, he⟩)
          · rcases List.mem_append.mp hi with hi' | hi'
            · exact Or.inl hi'
            · rw [List.mem_singleton] at hi'
              exact Or.inr ⟨a, List.mem_cons_self _ _, h, hi'⟩
          · exact Or.inr ⟨g, List.mem_cons_of_mem _ hg, hC, he⟩
        · rintro (hi | ⟨g, hg, hC, he⟩)
          · exact Or.inl (List.mem_append_left _ hi)
          · rcases List.mem_cons.mp hg with rfl | hg'
            · exact Or.inl (List.mem_append_right _ (List.mem_singleton.mpr he))
            · exact Or.inr ⟨g, hg', hC, he⟩
      · rw [if_neg h, ih]
        constructor
        · rintro (hi | ⟨g, hg, hC, he⟩)
          · exact Or.inl hi
          · exact Or.inr ⟨g, List.mem_cons_of_mem _ hg, hC, he⟩
        · rintro (hi | ⟨g, hg, hC, he⟩)
          · exact Or.inl hi
          · rcases List.mem_cons.mp hg with rfl | hg'
            · exact absurd hC h
            · exact Or.inr ⟨g, hg', hC, he⟩

theorem mem_ensurePayload (needed : List (NotionPropertyDef × String))
    (e : String × String × List SelectOption) :
    e ∈ ensureSelectOptionsPayload needed ↔
      ∃ g ∈ groupNeeded needed,
        (g.2.2.filter (fun nm => nm ∉ optionNames g.2.1)) ≠ [] ∧
        e = (g.2.1.name, g.2.1.type,
          g.2.1.options ++ (g.2.2.filter (fun nm => nm ∉ optionNames g.2.1)).map
            (fun nm => (⟨none, nm⟩ : SelectOption))) := by
  have h := mem_foldl_append_ite
    (fun g : String × NotionPropertyDef × List String =>
      (g.2.2.filter (fun nm => nm ∉ optionNames g.2.1)) ≠ [])
    (fun g => (g.2.1.name, g.2.1.type,
      g.2.1.options ++ (g.2.2.filter (fun nm => nm ∉ optionNames g.2.1)).map
        (fun nm => (⟨none, nm⟩ : SelectOption))))
    (groupNeeded needed) [] e
  rw [ensureSelectOptionsPayload]
  exact h.trans (by simp)

/-! ### Claim C7: option reconciler -/

/-- C7: the option reconciler emits no schema patch when every referenced
select/multi_select/status option name already exists on its target
property; and every emitted per-property patch consists of the existing
option list, in its original order, followed by the missing referenced
names in first-seen order — it never reorders or removes an existing
option. -/
theorem ensureSelectOptions_spec (plans : List Plan)
    (dbProps : List NotionPropertyDef) :
    ((∀ pn ∈ collectNeeded plans dbProps, pn.2 ∈ optionNames pn.1) →
      ensureSelectOptionsPayload (collectNeeded plans dbProps) = []) ∧
    (∀ e ∈ ensureSelectOptionsPayload (collectNeeded plans dbProps),
      ∃ prop missing, findProp dbProps e.1 = some prop ∧ e.2.1 = prop.type ∧
        missing = (firstSeen (namesFor (collectNeeded plans dbProps) e.1)).filter
          (fun nm => nm ∉ optionNames prop) ∧
        missing ≠ [] ∧
        e.2.2 = prop.options ++ missing.map (fun nm => (⟨none, nm⟩ : SelectOption))) := by
  constructor
  · intro hall
    rw [List.eq_nil_iff_forall_not_mem]
    intro e he
    rw [mem_ensurePayload] at he
    obtain ⟨g, hg, htoAdd, -⟩ := he
    obtain ⟨hname, ⟨nm0, hnm0⟩, hnames⟩ := groupNeeded_spec _ g hg
    apply htoAdd
    rw [List.filter_eq_nil_iff]
    intro nm hnm
    rw [hnames, mem_firstSeen] at hnm
    obtain ⟨prop', hmem', hname'⟩ := (mem_namesFor _ _ _).mp hnm
    have hco := collectNeeded_coherent plans dbProps
    have h1 := hco (prop', nm) hmem'
    have h2 := hco (g.2.1, nm0) hnm0
    have hpe : prop' = g.2.1 := by
      have : findProp dbProps g.1 = some prop' := by rw [← hname']; exact h1
      have h2' : findProp dbProps g.1 = some g.2.1 := by rw [← hname]; exact h2
      exact Option.some.inj (this.symm.trans h2')
    have := hall (prop', nm) hmem'
    rw [hpe] at this
    simp [this]
  · intro e he
    rw [mem_ensurePayload] at he
    obtain ⟨g, hg, htoAdd, heq⟩ := he
    obtain ⟨hname, ⟨nm0, hnm0⟩, hnames⟩ := groupNeeded_spec _ g hg
    have hfp : findProp dbProps g.2.1.name = some g.2.1 :=
      collectNeeded_coherent plans dbProps (g.2.1, nm0) hnm0
    refine ⟨g.2.1, g.2.2.filter (fun nm => nm ∉ optionNames g.2.1), ?_, ?_, ?_, htoAdd, ?_⟩
    · rw [heq]
      exact hfp
    · rw [heq]
    · rw [heq]
      dsimp only
      rw [hname, ← hnames]
    · rw [heq]

/-- Witness for C7: a plan list referencing only the existing option `"New"`
produces an empty schema patch. -/
theorem ensureSelectOptions_spec_witness :
    ensureSelectOptionsPayload (collectNeeded wPlansOk [wStatusProp]) = [] :=
  (ensureSelectOptions_spec wPlansOk [wStatusProp]).1 (by decide)

end NotionExcelMerger
